import Mathlib

/-!
Verification of the context-analyzer tool (scripts/context-analyzer.py).

The Python source is shallowly embedded: the filesystem is modelled as
explicit data (lists of file names at the project root, a tree type for
the recursive scan), subprocess results are modelled as an environment
record of `Except`-valued outcomes, and all text processing is modelled
over `List Char` with executable definitions mirroring the Python string
operations (`str.split`, `str.strip`, `re.sub`, substring tests).
-/

namespace ContextAnalyzer

/-! ### Generic character-list utilities (Python string operations) -/

/-- Python substring search: first occurrence split. `splitFirst sep s`
returns `some (before, after)` where `s = before ++ sep ++ after` at the
first occurrence of `sep`, and `none` when `sep` does not occur in `s`.
Only used with nonempty `sep`. -/
def splitFirst (sep : List Char) : List Char → Option (List Char × List Char)
  | [] => none
  | c :: rest =>
    if sep.isPrefixOf (c :: rest) then some ([], (c :: rest).drop sep.length)
    else
      match splitFirst sep rest with
      | none => none
      | some (pre, post) => some (c :: pre, post)

/-- Python `sub in s` substring containment test. -/
def containsSub (s pat : List Char) : Bool :=
  (splitFirst pat s).isSome

/-- Python `s.split(chr(10))`: split on every newline character. -/
def splitNL : List Char → List (List Char)
  | [] => [[]]
  | c :: rest =>
    if c = '\n' then [] :: splitNL rest
    else
      match splitNL rest with
      | [] => [[c]]
      | l :: ls => (c :: l) :: ls

/-- Python `chr(10).join(lines)`. -/
def joinNL : List (List Char) → List Char
  | [] => []
  | [l] => l
  | l :: ls => l ++ '\n' :: joinNL ls

/-- Python default whitespace set for `str.strip`. -/
def pyWhitespace (c : Char) : Bool :=
  c == ' ' || c == '\t' || c == '\n' || c == '\r' || c.toNat == 11 || c.toNat == 12

/-- Python `s.strip()`. -/
def trimL (s : List Char) : List Char :=
  ((s.dropWhile pyWhitespace).reverse.dropWhile pyWhitespace).reverse

/-- Python `s.lower()`. -/
def lowerL (s : List Char) : List Char :=
  s.map Char.toLower

/-! ### Marker Detector: `ProjectAnalyzer.detect_project_type` -/

/-- The `indicators` table of `detect_project_type`, in declaration order. -/
def indicators : List (String × List String) :=
  [ ("python", ["requirements.txt", "setup.py", "pyproject.toml", "Pipfile"]),
    ("javascript", ["package.json", "yarn.lock", "npm-shrinkwrap.json"]),
    ("typescript", ["tsconfig.json", "package.json"]),
    ("rust", ["Cargo.toml"]),
    ("go", ["go.mod", "go.sum"]),
    ("java", ["pom.xml", "build.gradle", "build.gradle.kts"]),
    ("docker", ["Dockerfile", "docker-compose.yml", "docker-compose.yaml"]) ]

/-- The inner loop of `detect_project_type`: a project type is collected
when at least one of its marker files exists at the project root. The
root is modelled by the list of names existing there. -/
def presentTags (files : List String) : List String :=
  (indicators.filter (fun p => p.2.any (fun f => files.contains f))).map Prod.fst

/-- `ProjectAnalyzer.detect_project_type`: returns the collected tags, or
the singleton `unknown` when none matched. -/
def detect_project_type (files : List String) : List String :=
  let detected := presentTags files
  if detected.isEmpty then ["unknown"] else detected

/-- Position of a tag in a list of tags (first match), used to state the
declaration-order property. -/
def idxIn : List String → String → Nat
  | [], _ => 0
  | x :: xs, t => if x = t then 0 else idxIn xs t + 1

lemma pair_sublist_decomp {α : Type} :
    ∀ (l : List α) (a b : α), [a, b].Sublist l →
      ∃ l₁ l₂ l₃, l = l₁ ++ a :: (l₂ ++ b :: l₃) := by
  intro l
  induction l with
  | nil => intro a b h; cases h
  | cons x xs ih =>
    intro a b h
    cases h with
    | cons _ h1 =>
      obtain ⟨l₁, l₂, l₃, rfl⟩ := ih a b h1
      exact ⟨x :: l₁, l₂, l₃, rfl⟩
    | cons₂ _ h1 =>
      have hb : b ∈ xs := h1.subset (by simp)
      obtain ⟨s, t, rfl⟩ := List.append_of_mem hb
      exact ⟨[], s, t, rfl⟩

lemma idxIn_append_of_not_mem :
    ∀ (l₁ l₂ : List String) (t : String), t ∉ l₁ →
      idxIn (l₁ ++ l₂) t = l₁.length + idxIn l₂ t := by
  intro l₁
  induction l₁ with
  | nil => intro l₂ t _; simp
  | cons x xs ih =>
    intro l₂ t ht
    have hx : x ≠ t := fun he => ht (he ▸ List.mem_cons_self x xs)
    rw [List.cons_append]
    simp only [idxIn, if_neg hx]
    rw [ih l₂ t (fun hm => ht (List.mem_cons_of_mem x hm))]
    simp only [List.length_cons]
    omega

lemma idxIn_lt_of_pair_sublist (l : List String) (a b : String)
    (h : [a, b].Sublist l) (hnd : l.Nodup) : idxIn l a < idxIn l b := by
  obtain ⟨l₁, l₂, l₃, rfl⟩ := pair_sublist_decomp l a b h
  obtain ⟨nd₁, nd₂, disj⟩ := List.nodup_append.mp hnd
  have ha1 : a ∉ l₁ := fun hm => disj hm (List.mem_cons_self _ _)
  have hb1 : b ∉ l₁ := fun hm =>
    disj hm (List.mem_cons_of_mem _ (List.mem_append_right l₂ (List.mem_cons_self b l₃)))
  have hanotin : a ∉ l₂ ++ b :: l₃ := (List.nodup_cons.mp nd₂).1
  have hab : a ≠ b := by
    intro he
    subst he
    exact hanotin (List.mem_append_right l₂ (List.mem_cons_self a l₃))
  rw [idxIn_append_of_not_mem l₁ _ a ha1, idxIn_append_of_not_mem l₁ _ b hb1]
  simp only [idxIn]
  simp [hab]

lemma presentTags_sublist (files : List String) :
    (presentTags files).Sublist (indicators.map Prod.fst) :=
  (List.filter_sublist indicators).map Prod.fst

/-- C1: with no marker present detection returns exactly the unknown
singleton; with the markers of exactly one ecosystem present it returns
that tag alone; with markers of exactly two ecosystems present it
returns both tags, ordered by the declaration order of the indicators
table. -/
theorem c1_marker_detection (files : List String) :
    (presentTags files = [] → detect_project_type files = ["unknown"]) ∧
    (∀ t, presentTags files = [t] → detect_project_type files = [t]) ∧
    (∀ t₁ t₂, presentTags files = [t₁, t₂] →
      detect_project_type files = [t₁, t₂] ∧
      idxIn (indicators.map Prod.fst) t₁ < idxIn (indicators.map Prod.fst) t₂) := by
  refine ⟨?_, ?_, ?_⟩
  · intro h
    simp [detect_project_type, h]
  · intro t h
    simp [detect_project_type, h]
  · intro t₁ t₂ h
    constructor
    · simp [detect_project_type, h]
    · have hs := presentTags_sublist files
      rw [h] at hs
      exact idxIn_lt_of_pair_sublist _ t₁ t₂ hs (by decide)

/-- C1 witness: a root holding exactly the rust and go markers (listed in
the opposite order) is detected as rust then go. -/
theorem c1_marker_detection_witness :
    detect_project_type ["go.mod", "Cargo.toml"] = ["rust", "go"] ∧
    idxIn (indicators.map Prod.fst) "rust" < idxIn (indicators.map Prod.fst) "go" :=
  (c1_marker_detection ["go.mod", "Cargo.toml"]).2.2 "rust" "go" (by decide)

/-! ### Repository Inspector: `ProjectAnalyzer.analyze_git_status`

A subprocess invocation either raises an exception (modelled as
`Except.error` carrying the message `str(e)`) or returns a completed
process with an exit code and captured stdout. The environment fixes the
outcome of each of the four git invocations made by the method. -/

structure CmdOut where
  exitcode : Int
  stdout : String
deriving DecidableEq

structure GitEnv where
  revParse : Except String CmdOut
  branchCmd : Except String CmdOut
  statusCmd : Except String CmdOut
  logCmd : Except String CmdOut

inductive GitInfo where
  | notRepo (err : Option String)
  | repo (current_branch : String) (has_changes : Bool) (change_count : Nat)
      (recent_commits : List String)
deriving DecidableEq

/-- `ProjectAnalyzer.analyze_git_status`: probe with rev-parse (nonzero
exit means not a repository, skipping the remaining queries), then read
branch, porcelain status and the last five one-line commits; every
exception is caught and becomes a not-a-repo result with an error
message. -/
def analyze_git_status (env : GitEnv) : GitInfo :=
  match env.revParse with
  | .error e => .notRepo (some e)
  | .ok r =>
    if r.exitcode ≠ 0 then .notRepo none
    else
      match env.branchCmd with
      | .error e => .notRepo (some e)
      | .ok b =>
        match env.statusCmd with
        | .error e => .notRepo (some e)
        | .ok s =>
          match env.logCmd with
          | .error e => .notRepo (some e)
          | .ok l =>
            let branch := trimL b.stdout.data
            let status := trimL s.stdout.data
            let commits := trimL l.stdout.data
            .repo ⟨branch⟩ (!status.isEmpty)
              (if status.isEmpty then 0 else (splitNL status).length)
              (if commits.isEmpty then [] else (splitNL commits).map (fun c => ⟨c⟩))

/-- An exception is actually encountered by `analyze_git_status`: either
the probe raises, or the probe reports a repository and one of the three
follow-up invocations raises. -/
def envEncountersFailure (env : GitEnv) : Prop :=
  (∃ e, env.revParse = .error e) ∨
  (∃ r, env.revParse = .ok r ∧ r.exitcode = 0 ∧
    ((∃ e, env.branchCmd = .error e) ∨
     (∃ b, env.branchCmd = .ok b ∧
       ((∃ e, env.statusCmd = .error e) ∨
        (∃ s, env.statusCmd = .ok s ∧ ∃ e, env.logCmd = .error e)))))

/-- C7: a nonzero probe exit yields a bare not-a-repo result, independent
of the other three command outcomes; a raising probe yields not-a-repo
with that message; and any encountered failure yields not-a-repo with
some error message, so repository inspection never aborts the run. -/
theorem c7_git_error_handling (env : GitEnv) :
    (∀ r, env.revParse = .ok r → r.exitcode ≠ 0 →
      analyze_git_status env = .notRepo none ∧
      ∀ b s l, analyze_git_status ⟨env.revParse, b, s, l⟩ = .notRepo none) ∧
    (∀ e, env.revParse = .error e → analyze_git_status env = .notRepo (some e)) ∧
    (envEncountersFailure env → ∃ msg, analyze_git_status env = .notRepo (some msg)) := by
  refine ⟨?_, ?_, ?_⟩
  · intro r hr hne
    constructor
    · simp [analyze_git_status, hr, hne]
    · intro b s l
      simp [analyze_git_status, hr, hne]
  · intro e he
    simp [analyze_git_status, he]
  · intro hf
    rcases hf with ⟨e, he⟩ | ⟨r, hr, hz, hrest⟩
    · exact ⟨e, by simp [analyze_git_status, he]⟩
    · rcases hrest with ⟨e, he⟩ | ⟨b, hb, hrest⟩
      · exact ⟨e, by simp [analyze_git_status, hr, hz, he]⟩
      · rcases hrest with ⟨e, he⟩ | ⟨s, hs, e, he⟩
        · exact ⟨e, by simp [analyze_git_status, hr, hz, hb, he]⟩
        · exact ⟨e, by simp [analyze_git_status, hr, hz, hb, hs, he]⟩

/-- C7 witness: a probe exiting 1 yields a bare not-a-repo result even
when the follow-up commands would all raise. -/
theorem c7_git_error_handling_witness :
    analyze_git_status ⟨.ok ⟨1, ""⟩, .error "x", .error "y", .error "z"⟩ =
      .notRepo none :=
  ((c7_git_error_handling ⟨.ok ⟨1, ""⟩, .error "x", .error "y", .error "z"⟩).1
    ⟨1, ""⟩ rfl (by decide)).1

/-- The number of non-empty lines of a command output, as the spec
describes the change count. -/
def claimNonemptyLineCount (s : String) : Nat :=
  ((splitNL s.data).filter (fun l => !l.isEmpty)).length

/-- The lines of the stripped command output with empty entries dropped,
as the spec describes the recent-commit list. -/
def claimCommitLines (s : String) : List String :=
  ((splitNL (trimL s.data)).filter (fun l => !l.isEmpty)).map (fun l => ⟨l⟩)

/-- C8 counterexample: on a porcelain status text with an interior blank
line the code reports a change count of 3, but the text has only 2
non-empty lines; and an interior blank log line is kept as an empty
entry of `recent_commits`, not dropped. -/
theorem c8_counterexample :
    analyze_git_status ⟨.ok ⟨0, ""⟩, .ok ⟨0, "main"⟩, .ok ⟨0, "M a\n\nM b"⟩,
        .ok ⟨0, "c1\n\nc2"⟩⟩ =
      .repo "main" true 3 ["c1", "", "c2"] ∧
    claimNonemptyLineCount "M a\n\nM b" = 2 ∧ (3 : Nat) ≠ 2 ∧
    "" ∈ ["c1", "", "c2"] := by
  refine ⟨by decide, by decide, by decide, by decide⟩

/-- C8 (amended): after stripping leading and trailing whitespace, the
change count is the number of lines of the split status text — which
equals the number of its non-empty lines whenever no interior line is
empty — and `recent_commits` is the stripped log output split on line
boundaries in emitted order; interior empty entries are retained by the
code, so the amended statement assumes none occur. -/
theorem c8_amended (rp br st lg : String) (cb cs cl : Int)
    (hS : trimL st.data = [] ∨ ∀ l ∈ splitNL (trimL st.data), l.isEmpty = false)
    (hL : trimL lg.data = [] ∨ ∀ l ∈ splitNL (trimL lg.data), l.isEmpty = false) :
    analyze_git_status ⟨.ok ⟨0, rp⟩, .ok ⟨cb, br⟩, .ok ⟨cs, st⟩, .ok ⟨cl, lg⟩⟩ =
      .repo ⟨trimL br.data⟩ (!(trimL st.data).isEmpty)
        ((splitNL (trimL st.data)).filter (fun l => !l.isEmpty)).length
        (claimCommitLines lg) := by
  have hstatus :
      (if (trimL st.data).isEmpty then 0 else (splitNL (trimL st.data)).length) =
        ((splitNL (trimL st.data)).filter (fun l => !l.isEmpty)).length := by
    rcases hS with h | h
    · rw [h]; decide
    · have hne : (trimL st.data).isEmpty = false := by
        cases hemp : trimL st.data with
        | nil =>
          have := h [] (by rw [hemp]; exact List.mem_singleton.mpr rfl)
          simp at this
        | cons c cs => simp
      rw [if_neg (by simp [hne]), List.filter_eq_self.mpr (by
        intro l hl
        simp [h l hl])]
  have hcommits :
      (if (trimL lg.data).isEmpty then []
        else (splitNL (trimL lg.data)).map (fun c => (⟨c⟩ : String))) =
        claimCommitLines lg := by
    unfold claimCommitLines
    rcases hL with h | h
    · rw [h]; decide
    · have hne : (trimL lg.data).isEmpty = false := by
        cases hemp : trimL lg.data with
        | nil =>
          have := h [] (by rw [hemp]; exact List.mem_singleton.mpr rfl)
          simp at this
        | cons c cs => simp
      rw [if_neg (by simp [hne]), List.filter_eq_self.mpr (by
        intro l hl
        simp [h l hl])]
  simp only [analyze_git_status]
  rw [if_neg (by simp)]
  rw [hstatus, hcommits]

/-- C8 amended witness: a clean two-line status and two-line log. -/
theorem c8_amended_witness :
    analyze_git_status ⟨.ok ⟨0, ""⟩, .ok ⟨0, "main"⟩, .ok ⟨0, "M a\nM b"⟩,
        .ok ⟨0, "c1\nc2"⟩⟩ =
      .repo ⟨trimL "main".data⟩ (!(trimL "M a\nM b".data).isEmpty)
        ((splitNL (trimL "M a\nM b".data)).filter (fun l => !l.isEmpty)).length
        (claimCommitLines "c1\nc2") :=
  c8_amended "" "main" "M a\nM b" "c1\nc2" 0 0 0
    (Or.inr (by decide)) (Or.inr (by decide))

/-! ### Tooling Detector: the manifest-script table of
`ProjectAnalyzer.detect_build_tools` (lines 92-110) -/

structure BuildTools where
  build : List String
  test : List String
  lint : List String
  format : List String
deriving DecidableEq

def emptyTools : BuildTools := ⟨[], [], [], []⟩

/-- Python `any(word in script_name.lower() for word in words)`. -/
def anyKeyword (lowName : List Char) (words : List String) : Bool :=
  words.any (fun w => containsSub lowName w.data)

/-- One iteration of the script-classification loop: the script name is
tested against the four keyword lists in order, the first matching
category receiving the canonical npm command; the script command text is
never inspected. -/
def classifyScript (tools : BuildTools) (scriptName : String) : BuildTools :=
  let low := lowerL scriptName.data
  if anyKeyword low ["build", "compile"] then
    { tools with build := tools.build ++ ["npm run " ++ scriptName] }
  else if anyKeyword low ["test", "spec"] then
    { tools with test := tools.test ++ ["npm run " ++ scriptName] }
  else if anyKeyword low ["lint", "check"] then
    { tools with lint := tools.lint ++ ["npm run " ++ scriptName] }
  else if anyKeyword low ["format", "prettier"] then
    { tools with format := tools.format ++ ["npm run " ++ scriptName] }
  else tools

/-- The package.json scripts loop of `detect_build_tools`, over the
parsed script table (name, command text) in iteration order. -/
def detect_build_tools_scripts (scripts : List (String × String)) : BuildTools :=
  scripts.foldl (fun t p => classifyScript t p.1) emptyTools

/-- C6: scripts are classified case-insensitively by substring match,
first category wins: a table with scripts build:prod, test:unit and
release yields exactly one build command and one test command naming
those scripts and nothing else, regardless of the command texts; a
MixedCase name still matches; and any single script lands in at most one
category. -/
theorem c6_script_classification :
    (∀ c₁ c₂ c₃ : String,
      detect_build_tools_scripts
          [("build:prod", c₁), ("test:unit", c₂), ("release", c₃)] =
        ⟨["npm run build:prod"], ["npm run test:unit"], [], []⟩) ∧
    (∀ c : String,
      (detect_build_tools_scripts [("TeSt", c)]).test = ["npm run TeSt"]) ∧
    (∀ name cmd : String,
      (detect_build_tools_scripts [(name, cmd)]).build.length +
      (detect_build_tools_scripts [(name, cmd)]).test.length +
      (detect_build_tools_scripts [(name, cmd)]).lint.length +
      (detect_build_tools_scripts [(name, cmd)]).format.length ≤ 1) := by
  refine ⟨?_, ?_, ?_⟩
  · intro c₁ c₂ c₃
    rfl
  · intro c
    rfl
  · intro name cmd
    simp only [detect_build_tools_scripts, List.foldl, classifyScript]
    split
    · simp [emptyTools]
    · split
      · simp [emptyTools]
      · split
        · simp [emptyTools]
        · split
          · simp [emptyTools]
          · simp [emptyTools]

/-! ### Tree Scanner: `ProjectAnalyzer.scan_project_structure`

The directory tree under the project root is a list of nodes; the walk
is modelled after `os.walk` top-down: for each visited directory, the
directory itself is classified by name, then its regular files are
classified in listing order, then the non-pruned subdirectories are
visited recursively in listing order. -/

structure PStructure where
  config_files : List String
  source_dirs : List String
  doc_files : List String
  test_dirs : List String
  total_files : Nat
  languages : List (String × Nat)
deriving DecidableEq

def emptyStructure : PStructure := ⟨[], [], [], [], 0, []⟩

inductive FSTree where
  | file (name : String)
  | dir (name : String) (children : List FSTree)

/-- The pruning predicate of the walk: hidden directories and the fixed
vendor/build exclusion list are not descended into. -/
def excludedDir (name : String) : Bool :=
  ['.'].isPrefixOf name.data || ["node_modules", "__pycache__", "target"].contains name

def isTestDir (name : String) : Bool :=
  anyKeyword (lowerL name.data) ["test", "tests", "spec"]

def isSourceDir (name : String) : Bool :=
  anyKeyword (lowerL name.data) ["src", "lib", "app"]

/-- `Path.suffix` of CPython: the extension from the last dot of the
final component, empty when the dot is leading or trailing. -/
def sufL (l : List Char) : List Char :=
  match l.reverse.findIdx? (fun c => c == '.') with
  | none => []
  | some j =>
    let p := l.length - 1 - j
    if 0 < p then if 0 < j then l.drop p else [] else []

/-- The `config_patterns` regex list matched with `re.match` (anchored at
the start); the patterns reduce to suffix tests and exact names, plus
the prefix-and-suffix shape of the `requirements` pattern. Filenames are
assumed newline-free, as the regex dot does not cross newlines. -/
def isConfigFile (name : String) : Bool :=
  let d := name.data
  ".json".data.isSuffixOf d || ".yaml".data.isSuffixOf d ||
  ".yml".data.isSuffixOf d || ".toml".data.isSuffixOf d ||
  ".ini".data.isSuffixOf d || ".cfg".data.isSuffixOf d ||
  name == "Dockerfile" || name == "Makefile" ||
  ("requirements".data.isPrefixOf d && ".txt".data.isSuffixOf d &&
    decide (16 ≤ d.length)) ||
  name == "package.json" || name == "go.mod"

def source_extensions : List (String × String) :=
  [ (".py", "python"), (".js", "javascript"), (".ts", "typescript"),
    (".rs", "rust"), (".go", "go"), (".java", "java"), (".cpp", "cpp"),
    (".c", "c"), (".h", "c"), (".hpp", "cpp") ]

def isDocFile (name : String) : Bool :=
  anyKeyword (lowerL name.data) ["readme", "doc", "changelog"]

/-- Python dict update `languages[lang] = languages.get(lang, 0) + 1`
on an insertion-ordered association list. -/
def bumpLang (langs : List (String × Nat)) (lang : String) : List (String × Nat) :=
  if langs.any (fun p => p.1 == lang) then
    langs.map (fun p => if p.1 == lang then (p.1, p.2 + 1) else p)
  else langs ++ [(lang, 1)]

/-- Per-file body of the walk loop: count the file, then test the config
patterns, the documentation keywords and the extension table. -/
def classifyFile (relFile fileName : String) (st : PStructure) : PStructure :=
  let st1 := { st with total_files := st.total_files + 1 }
  let st2 :=
    if isConfigFile fileName then
      { st1 with config_files := st1.config_files ++ [relFile] } else st1
  let st3 :=
    if isDocFile fileName then
      { st2 with doc_files := st2.doc_files ++ [relFile] } else st2
  match source_extensions.lookup (⟨lowerL (sufL fileName.data)⟩ : String) with
  | some lang => { st3 with languages := bumpLang st3.languages lang }
  | none => st3

/-- Per-directory classification: test keywords checked before source
keywords, a directory recorded at most once. -/
def classifyDir (rel name : String) (st : PStructure) : PStructure :=
  if isTestDir name then { st with test_dirs := st.test_dirs ++ [rel] }
  else if isSourceDir name then { st with source_dirs := st.source_dirs ++ [rel] }
  else st

/-- Relative-path extension mirroring `str(Path(...).relative_to(root))`
with the root spelled `.`. -/
def childPath (parent name : String) : String :=
  if parent = "." then name else parent ++ "/" ++ name

/-- The `for file in files` loop of the walk body: regular files of the
visited directory in listing order; subdirectory entries are handled by
the recursive visit instead. -/
def processFiles (rel : String) : List FSTree → PStructure → PStructure
  | [], acc => acc
  | .file f :: rest, acc => processFiles rel rest (classifyFile (childPath rel f) f acc)
  | .dir _ _ :: rest, acc => processFiles rel rest acc

mutual

/-- Visit one directory of the walk: classify it, classify its files,
then recurse into its non-pruned subdirectories. -/
def scanDir (name rel : String) (children : List FSTree) (acc : PStructure) :
    PStructure :=
  scanSubdirs rel children (processFiles rel children (classifyDir rel name acc))
termination_by sizeOf children + 1

def scanSubdirs (rel : String) (cs : List FSTree) (acc : PStructure) : PStructure :=
  match cs with
  | [] => acc
  | .file _ :: rest => scanSubdirs rel rest acc
  | .dir n cs2 :: rest =>
    if excludedDir n then scanSubdirs rel rest acc
    else scanSubdirs rel rest (scanDir n (childPath rel n) cs2 acc)
termination_by sizeOf cs

end

/-- `ProjectAnalyzer.scan_project_structure`: walk from the project root
(relative path `.`, directory name that of the root itself). -/
def scan_project_structure (rootName : String) (children : List FSTree) :
    PStructure :=
  scanDir rootName "." children emptyStructure

mutual

/-- Replace the contents of every excluded directory by nothing; scanning
is invariant under this replacement. -/
def pruneTree : FSTree → FSTree
  | .file f => .file f
  | .dir n cs => if excludedDir n then .dir n [] else .dir n (pruneList cs)

def pruneList : List FSTree → List FSTree
  | [] => []
  | t :: ts => pruneTree t :: pruneList ts

end

lemma processFiles_prune (rel : String) (cs : List FSTree) (acc : PStructure) :
    processFiles rel (pruneList cs) acc = processFiles rel cs acc := by
  induction cs generalizing acc with
  | nil => rfl
  | cons t ts ih =>
    cases t with
    | file f =>
      rw [pruneList, pruneTree, processFiles, processFiles]
      exact ih _
    | dir n cs2 =>
      rw [pruneList, pruneTree]
      cases h : excludedDir n with
      | true => rw [if_pos rfl, processFiles, processFiles]; exact ih _
      | false => rw [if_neg (by simp), processFiles, processFiles]; exact ih _

mutual

theorem scanDir_prune (name rel : String) (cs : List FSTree) (acc : PStructure) :
    scanDir name rel (pruneList cs) acc = scanDir name rel cs acc := by
  rw [scanDir, scanDir, processFiles_prune,
    scanSubdirs_prune rel cs (processFiles rel cs (classifyDir rel name acc))]
termination_by sizeOf cs + 1

theorem scanSubdirs_prune (rel : String) (cs : List FSTree) (acc : PStructure) :
    scanSubdirs rel (pruneList cs) acc = scanSubdirs rel cs acc := by
  match cs with
  | [] => rfl
  | .file f :: rest =>
    rw [pruneList, pruneTree]
    rw [scanSubdirs, scanSubdirs]
    exact scanSubdirs_prune rel rest acc
  | .dir n cs2 :: rest =>
    rw [pruneList, pruneTree]
    by_cases h : excludedDir n = true
    · rw [if_pos h]
      rw [scanSubdirs, scanSubdirs]
      rw [if_pos h, if_pos h]
      exact scanSubdirs_prune rel rest acc
    · rw [if_neg h]
      rw [scanSubdirs, scanSubdirs]
      rw [if_neg h, if_neg h]
      rw [scanDir_prune n (childPath rel n) cs2 acc]
      exact scanSubdirs_prune rel rest (scanDir n (childPath rel n) cs2 acc)
termination_by sizeOf cs

end

/-- C5: the scan never descends into a pruned directory — a directory
whose name starts with a dot or is in the exclusion list is skipped
outright by the walk — and nothing below such a directory contributes to
any count or list: the result is invariant under emptying every excluded
directory of the tree. -/
theorem c5_pruned_dirs_contribute_nothing (rootName : String)
    (children : List FSTree) :
    scan_project_structure rootName children =
      scan_project_structure rootName (pruneList children) ∧
    ∀ rel n cs rest acc, excludedDir n = true →
      scanSubdirs rel (FSTree.dir n cs :: rest) acc = scanSubdirs rel rest acc := by
  constructor
  · exact (scanDir_prune rootName "." children emptyStructure).symm
  · intro rel n cs rest acc h
    rw [scanSubdirs, if_pos h]

/-- C5 witness: a `node_modules` directory holding a source file is
skipped by the walk. -/
theorem c5_pruned_dirs_contribute_nothing_witness :
    scanSubdirs "." [FSTree.dir "node_modules" [FSTree.file "a.py"]]
        emptyStructure =
      scanSubdirs "." [] emptyStructure :=
  (c5_pruned_dirs_contribute_nothing "proj" []).2 "." "node_modules"
    [FSTree.file "a.py"] [] emptyStructure (by decide)

/-! ### Report Renderer: `ProjectAnalyzer._generate_project_overview` -/

/-- Python `max(languages, key=languages.get)`: first key of maximal
count in iteration order (a strictly greater count displaces the current
best). -/
def maxGo (bestKey : String) (bestVal : Nat) : List (String × Nat) → String
  | [] => bestKey
  | (k, v) :: rest => if v > bestVal then maxGo k v rest else maxGo bestKey bestVal rest

/-- The primary-language selection at the top of
`_generate_project_overview`: the most counted language, else the first
project type, else the literal unknown. -/
def primaryLang (languages : List (String × Nat)) (project_types : List String) :
    String :=
  match languages with
  | [] =>
    match project_types with
    | [] => "unknown"
    | t :: _ => t
  | (k, v) :: rest => maxGo k v rest

/-- `ProjectAnalyzer._format_list`. -/
def formatList (items : List String) (empty : String) : String :=
  if items.isEmpty then "- " ++ empty
  else String.intercalate "\n" (items.map (fun i => "- `" ++ i ++ "`"))

def joinComma (l : List String) : String := String.intercalate ", " l

def langsJoin (langs : List (String × Nat)) : String :=
  String.intercalate ", "
    (langs.map (fun p => p.1 ++ " (" ++ toString p.2 ++ " files)"))

/-- An apostrophe, kept out of string literals. -/
def apos : String := ⟨['\'']⟩

/-- The extra git block of the overview, emitted only when the analysis
reported a repository. -/
def gitExtra (git : GitInfo) : String :=
  match git with
  | .notRepo _ => ""
  | .repo br hc cc rc =>
    "- **Current Branch:** " ++ br ++
    "\n- **Has Uncommitted Changes:** " ++ (if hc then "Yes" else "No") ++
    "\n- **Change Count:** " ++ toString cc ++
    "\n\n### Recent Commits\n" ++ formatList rc "No recent commits" ++ "\n"

def isRepoFlag (git : GitInfo) : Bool :=
  match git with
  | .notRepo _ => false
  | .repo _ _ _ _ => true

/-- The fixed template text before the first timestamp interpolation. -/
def ovPre : String := "# Project Overview\n\n**Generated:** "

/-- The template text between the two timestamp interpolations, with all
other interpolations filled in. -/
def ovMid (path : String) (pt : List String) (git : GitInfo)
    (tools : BuildTools) (st : PStructure) : String :=
  "  \n**Project Path:** " ++ path ++ "  \n**Analysis Version:** 1.0  \n\n" ++
  "## Project Summary\nThis appears to be a " ++ joinComma pt ++
  " project with " ++ toString st.total_files ++ " files.\n\n" ++
  "## Technology Stack\n- **Primary Language:** " ++
  primaryLang st.languages pt ++
  "\n- **Project Types:** " ++ joinComma pt ++
  "\n- **Languages Detected:** " ++ langsJoin st.languages ++
  "\n\n## Project Structure\n```\nTotal Files: " ++ toString st.total_files ++
  "\nSource Directories: " ++ toString st.source_dirs.length ++
  "\nTest Directories: " ++ toString st.test_dirs.length ++
  "\nConfig Files: " ++ toString st.config_files.length ++
  "\nDocumentation Files: " ++ toString st.doc_files.length ++
  "\n```\n\n### Key Directories\n" ++
  formatList st.source_dirs "No source directories identified" ++
  "\n\n### Configuration Files\n" ++
  formatList (st.config_files.take 10) "No configuration files found" ++
  "\n\n### Documentation\n" ++
  formatList st.doc_files "No documentation files found" ++
  "\n\n## Development Environment\n### Build Commands\n" ++
  formatList tools.build "No build commands detected" ++
  "\n\n### Test Commands  \n" ++
  formatList tools.test "No test commands detected" ++
  "\n\n### Linting Commands\n" ++
  formatList tools.lint "No linting commands detected" ++
  "\n\n### Formatting Commands\n" ++
  formatList tools.format "No formatting commands detected" ++
  "\n\n## Git Repository Status\n- **Is Git Repo:** " ++
  (if isRepoFlag git then "Yes" else "No") ++ "\n" ++
  gitExtra git ++
  "\n## Next Steps\n1. Review and understand the project" ++ apos ++
  "s main purpose\n2. Identify any immediate development tasks\n" ++
  "3. Set up development environment if needed\n" ++
  "4. Review existing documentation and code patterns\n\n" ++
  "## Questions for User\n" ++
  "1. What is the primary goal or purpose of this project?\n" ++
  "2. Are there any specific tasks or features you" ++ apos ++
  "d like to work on?\n" ++
  "3. Are there any particular coding standards or patterns to follow?\n" ++
  "4. Do you need help setting up the development environment?\n\n" ++
  "---\n*This analysis was generated automatically on "

/-- The fixed template text after the second timestamp interpolation. -/
def ovPost : String := "*\n"

/-- `ProjectAnalyzer._generate_project_overview`: one timestamp is taken
at entry and interpolated in the header and the footer; everything else
depends only on the analysis results. -/
def generate_project_overview (ts path : String) (pt : List String)
    (git : GitInfo) (tools : BuildTools) (st : PStructure) : String :=
  ovPre ++ ts ++ ovMid path pt git tools st ++ ts ++ ovPost

/-- C9: two create-mode runs over unchanged analysis inputs differ only
at the two timestamp slots: the rendered overview is a fixed prefix, the
timestamp, a timestamp-independent body, the timestamp again, and a
fixed suffix. -/
theorem c9_overview_timestamp_only (path : String) (pt : List String)
    (git : GitInfo) (tools : BuildTools) (st : PStructure) :
    ∃ a b c : String, ∀ ts : String,
      generate_project_overview ts path pt git tools st = a ++ ts ++ b ++ ts ++ c :=
  ⟨ovPre, ovMid path pt git tools st, ovPost, fun _ => rfl⟩

lemma maxGo_spec :
    ∀ (rest : List (String × Nat)) (k : String) (v : Nat),
      ∃ v₀, (maxGo k v rest, v₀) ∈ (k, v) :: rest ∧ v ≤ v₀ ∧
        ∀ p ∈ rest, p.2 ≤ v₀ := by
  intro rest
  induction rest with
  | nil =>
    intro k v
    exact ⟨v, by simp [maxGo], le_refl v, by simp⟩
  | cons q r ih =>
    intro k v
    obtain ⟨k2, v2⟩ := q
    by_cases h : v2 > v
    · obtain ⟨v₀, hmem, hle, hall⟩ := ih k2 v2
      refine ⟨v₀, ?_, ?_, ?_⟩
      · rw [maxGo, if_pos h]
        rcases List.mem_cons.mp hmem with he | hm
        · rw [he]; simp
        · exact List.mem_cons_of_mem _ (List.mem_cons_of_mem _ hm)
      · omega
      · intro p hp
        rcases List.mem_cons.mp hp with he | hm
        · rw [he]; exact hle
        · exact hall p hm
    · obtain ⟨v₀, hmem, hle, hall⟩ := ih k v
      refine ⟨v₀, ?_, ?_, ?_⟩
      · rw [maxGo, if_neg h]
        rcases List.mem_cons.mp hmem with he | hm
        · rw [he]; simp
        · exact List.mem_cons_of_mem _ (List.mem_cons_of_mem _ hm)
      · exact hle
      · intro p hp
        rcases List.mem_cons.mp hp with he | hm
        · rw [he]; simp; omega
        · exact hall p hm

/-- C10: detection never returns an empty tag list, so the final literal
fallback of the primary-language selection is unreachable: with no
counted language the rendered primary language is the first detected tag
whatever the fallback default would be, and with counted languages it is
a language of maximal count. -/
theorem c10_primary_language_total (files : List String) :
    detect_project_type files ≠ [] ∧
    (∀ d : String,
      primaryLang [] (detect_project_type files) =
        (detect_project_type files).headD d) ∧
    (∀ (k : String) (v : Nat) (rest : List (String × Nat)),
      ∃ v₀, (primaryLang ((k, v) :: rest) (detect_project_type files), v₀) ∈
          (k, v) :: rest ∧
        ∀ p ∈ (k, v) :: rest, p.2 ≤ v₀) := by
  have hne : detect_project_type files ≠ [] := by
    unfold detect_project_type
    by_cases h2 : presentTags files = []
    · simp [h2]
    · simp [h2]
  refine ⟨hne, ?_, ?_⟩
  · intro d
    cases hd : detect_project_type files with
    | nil => exact absurd hd hne
    | cons t r => simp [primaryLang]
  · intro k v rest
    obtain ⟨v₀, hmem, hv, hall⟩ := maxGo_spec rest k v
    refine ⟨v₀, ?_, ?_⟩
    · simpa [primaryLang] using hmem
    · intro p hp
      rcases List.mem_cons.mp hp with he | hm
      · rw [he]; exact hv
      · exact hall p hm

/-! ### Overview update mode: the custom-notes merge of
`ProjectAnalyzer.generate_analysis` (lines 223-227) -/

lemma isPrefixOf_append_self (l t : List Char) : l.isPrefixOf (l ++ t) = true :=
  List.isPrefixOf_iff_prefix.mpr ⟨t, rfl⟩

lemma splitFirst_append (sep pre post : List Char) (hsep : sep ≠ [])
    (h : ∀ i < pre.length, sep.isPrefixOf ((pre ++ sep ++ post).drop i) = false) :
    splitFirst sep (pre ++ sep ++ post) = some (pre, post) := by
  induction pre with
  | nil =>
    simp only [List.nil_append]
    cases hs : sep with
    | nil => exact absurd hs hsep
    | cons a as =>
      rw [← hs]
      cases he : sep ++ post with
      | nil =>
        rw [hs] at he
        simp at he
      | cons c rest =>
        rw [splitFirst]
        rw [← he, isPrefixOf_append_self]
        simp only [if_true]
        rw [List.drop_left]
  | cons c pre2 ih =>
    have h0 : sep.isPrefixOf (c :: (pre2 ++ sep ++ post)) = false := by
      have := h 0 (by simp)
      simpa using this
    rw [List.cons_append, List.cons_append, splitFirst, h0]
    simp only [Bool.false_eq_true, if_false]
    rw [ih (by
      intro i hi
      have := h (i + 1) (by simp; omega)
      simpa using this)]

lemma splitFirst_none (sep s : List Char)
    (h : ∀ i < s.length, sep.isPrefixOf (s.drop i) = false) :
    splitFirst sep s = none := by
  induction s with
  | nil => rfl
  | cons c rest ih =>
    have h0 : sep.isPrefixOf (c :: rest) = false := by
      have := h 0 (by simp)
      simpa using this
    rw [splitFirst, h0]
    simp only [Bool.false_eq_true, if_false]
    rw [ih (by
      intro i hi
      have := h (i + 1) (by simp; omega)
      simpa using this)]

def customNotesHd : List Char := "## Custom Notes".data

def nlHH : List Char := "\n##".data

/-- The update-mode merge of `generate_analysis`: when the heading text
occurs in the old overview, the text between the first and second
occurrence (or everything after the only occurrence), cut at the first
newline-hash-hash sequence, is re-appended after the heading to the
freshly rendered overview. -/
def mergeL (newOv ex : List Char) : List Char :=
  match splitFirst customNotesHd ex with
  | none => newOv
  | some (_, rest) =>
    let part1 :=
      match splitFirst customNotesHd rest with
      | none => rest
      | some (pre, _) => pre
    let customSection :=
      match splitFirst nlHH part1 with
      | none => part1
      | some (pre, _) => pre
    newOv ++ '\n' :: (customNotesHd ++ customSection)

def merge_custom_notes (newOverview existing : String) : String :=
  ⟨mergeL newOverview.data existing.data⟩

/-- C2 counterexample: with an existing overview whose Custom Notes
section contains a deeper heading, the code cuts the preserved section
at the subsection (and inserts an extra newline), so the written file is
not the fresh document followed by the old text from the heading to the
next top-level heading or end of file (here: to end of file). -/
theorem c2_counterexample :
    merge_custom_notes "NEW\n" "## Custom Notes\nkeep me\n### sub\nmore" =
      "NEW\n\n## Custom Notes\nkeep me" ∧
    merge_custom_notes "NEW\n" "## Custom Notes\nkeep me\n### sub\nmore" ≠
      "NEW\n" ++ "## Custom Notes\nkeep me\n### sub\nmore" := by
  exact ⟨by decide, by decide⟩

/-- C2 (amended): when the heading occurs exactly once in the old
overview, the new overview is the freshly rendered document, a newline,
the heading, and the old text from just after the heading up to the
first following newline-hash-hash sequence — which may open a deeper
heading such as a subsection, not only a top-level one — or to end of
file; that text (e.g. a literal keep-me note) is preserved verbatim. -/
theorem c2_amended (fresh : String) (pre mid post : List Char)
    (h1 : ∀ i < pre.length,
      customNotesHd.isPrefixOf
        ((pre ++ customNotesHd ++ (mid ++ post)).drop i) = false)
    (h2 : ∀ i < (mid ++ post).length,
      customNotesHd.isPrefixOf ((mid ++ post).drop i) = false)
    (h3 : ∀ i < mid.length, nlHH.isPrefixOf ((mid ++ post).drop i) = false)
    (h4 : post = [] ∨ ∃ post2, post = nlHH ++ post2) :
    merge_custom_notes fresh ⟨pre ++ customNotesHd ++ (mid ++ post)⟩ =
      ⟨fresh.data ++ '\n' :: (customNotesHd ++ mid)⟩ := by
  have e1 : splitFirst customNotesHd (pre ++ customNotesHd ++ (mid ++ post)) =
      some (pre, mid ++ post) :=
    splitFirst_append customNotesHd pre (mid ++ post) (by decide) h1
  have e2 : splitFirst customNotesHd (mid ++ post) = none :=
    splitFirst_none customNotesHd (mid ++ post) h2
  have e3 : (match splitFirst nlHH (mid ++ post) with
      | none => mid ++ post
      | some (p, _) => p) = mid := by
    rcases h4 with hp | ⟨post2, hp⟩
    · subst hp
      rw [List.append_nil] at h3 ⊢
      rw [splitFirst_none nlHH mid h3]
    · subst hp
      rw [← List.append_assoc] at h3 ⊢
      rw [splitFirst_append nlHH mid post2 (by decide) h3]
  unfold merge_custom_notes mergeL
  simp only [e1, e2, e3]

/-- C2 amended witness: a note bounded below by a top-level heading. -/
theorem c2_amended_witness :
    merge_custom_notes "NEW\n"
        ⟨"# T\n".data ++ customNotesHd ++ ("\nkeep me".data ++ "\n## Other".data)⟩ =
      ⟨("NEW\n" : String).data ++ '\n' :: (customNotesHd ++ "\nkeep me".data)⟩ :=
  c2_amended "NEW\n" "# T\n".data "\nkeep me".data "\n## Other".data
    (by decide) (by decide) (by decide)
    (Or.inr ⟨" Other".data, by decide⟩)

/-! ### Task-tracker update: the timestamp substitution of
`ProjectAnalyzer._generate_initial_tasks` (lines 356-360)

`re.sub` with the pattern matching the literal Last-Updated marker
followed by the rest of the line replaces every non-overlapping match;
a match never crosses a newline. The scan is modelled with an explicit
fuel argument (the remaining length bounds the recursion), keeping the
definition kernel-reducible. -/

def lastUpdatedPat : List Char := "**Last Updated:**".data

/-- The rest of the current line consumed by the regex dot-star. -/
def dropLine (s : List Char) : List Char :=
  s.dropWhile (fun c => !(c == '\n'))

def subTSF (repl : List Char) : Nat → List Char → List Char
  | 0, s => s
  | _ + 1, [] => []
  | f + 1, c :: rest =>
    if lastUpdatedPat.isPrefixOf (c :: rest) then
      repl ++ subTSF repl f (dropLine ((c :: rest).drop lastUpdatedPat.length))
    else c :: subTSF repl f rest

/-- `re.sub` of the Last-Updated pattern: scan left to right, replacing
each match (the literal and the rest of its line) by `repl` and
continuing after it. -/
def subTS (repl s : List Char) : List Char :=
  subTSF repl s.length s

/-- The replacement text built by the f-string. -/
def replOf (ts : String) : List Char :=
  ("**Last Updated:** " ++ ts).data

/-- The timestamp update applied to the existing tracker content. -/
def update_last_updated (ts content : String) : String :=
  ⟨subTS (replOf ts) content.data⟩

lemma length_dropWhile_le (p : Char → Bool) (l : List Char) :
    (l.dropWhile p).length ≤ l.length := by
  induction l with
  | nil => simp
  | cons c rest ih =>
    rw [List.dropWhile]
    cases p c with
    | true => simp; omega
    | false => simp

lemma subTSF_congr (repl : List Char) :
    ∀ f g s, s.length ≤ f → s.length ≤ g → subTSF repl f s = subTSF repl g s := by
  intro f
  induction f with
  | zero =>
    intro g s hf _
    have : s = [] := List.length_eq_zero.mp (Nat.le_zero.mp hf)
    subst this
    cases g <;> rfl
  | succ f2 ih =>
    intro g s hf hg
    cases s with
    | nil => cases g <;> rfl
    | cons c rest =>
      cases g with
      | zero => simp at hg
      | succ g2 =>
        rw [subTSF, subTSF]
        cases h : lastUpdatedPat.isPrefixOf (c :: rest) with
        | true =>
          simp only [if_true]
          congr 1
          apply ih
          · have h1 := length_dropWhile_le (fun c => !(c == '\n'))
              ((c :: rest).drop lastUpdatedPat.length)
            have h2 : ((c :: rest).drop lastUpdatedPat.length).length =
                (c :: rest).length - lastUpdatedPat.length := List.length_drop _ _
            have h3 : (0 : Nat) < lastUpdatedPat.length := by decide
            simp only [List.length_cons] at h2 hf
            rw [dropLine]
            omega
          · have h1 := length_dropWhile_le (fun c => !(c == '\n'))
              ((c :: rest).drop lastUpdatedPat.length)
            have h2 : ((c :: rest).drop lastUpdatedPat.length).length =
                (c :: rest).length - lastUpdatedPat.length := List.length_drop _ _
            have h3 : (0 : Nat) < lastUpdatedPat.length := by decide
            simp only [List.length_cons] at h2 hg
            rw [dropLine]
            omega
        | false =>
          simp only [Bool.false_eq_true, if_false]
          congr 1
          apply ih
          · simp only [List.length_cons] at hf; omega
          · simp only [List.length_cons] at hg; omega

lemma subTS_cons_match (repl : List Char) (c : Char) (rest : List Char)
    (h : lastUpdatedPat.isPrefixOf (c :: rest) = true) :
    subTS repl (c :: rest) =
      repl ++ subTS repl (dropLine ((c :: rest).drop lastUpdatedPat.length)) := by
  show subTSF repl (c :: rest).length (c :: rest) = _
  rw [List.length_cons, subTSF, if_pos h]
  congr 1
  apply subTSF_congr
  · have h1 := length_dropWhile_le (fun c => !(c == '\n'))
      ((c :: rest).drop lastUpdatedPat.length)
    have h2 : ((c :: rest).drop lastUpdatedPat.length).length =
        (c :: rest).length - lastUpdatedPat.length := List.length_drop _ _
    have h3 : (0 : Nat) < lastUpdatedPat.length := by decide
    simp only [List.length_cons] at h2
    rw [dropLine]
    omega
  · exact le_refl _

lemma subTS_cons_skip (repl : List Char) (c : Char) (rest : List Char)
    (h : lastUpdatedPat.isPrefixOf (c :: rest) = false) :
    subTS repl (c :: rest) = c :: subTS repl rest := by
  show subTSF repl (c :: rest).length (c :: rest) = _
  rw [List.length_cons, subTSF, h]
  simp only [Bool.false_eq_true, if_false]
  rfl

lemma subTS_consume (repl s : List Char)
    (h : lastUpdatedPat.isPrefixOf s = true) :
    subTS repl s =
      repl ++ subTS repl (dropLine (s.drop lastUpdatedPat.length)) := by
  cases s with
  | nil => exact absurd h (by decide)
  | cons c rest => exact subTS_cons_match repl c rest h

lemma subTS_append_no_match (repl : List Char) :
    ∀ (a b : List Char),
      (∀ i < a.length, lastUpdatedPat.isPrefixOf ((a ++ b).drop i) = false) →
      subTS repl (a ++ b) = a ++ subTS repl b := by
  intro a
  induction a with
  | nil => intro b _; simp
  | cons c a2 ih =>
    intro b h
    have h0 : lastUpdatedPat.isPrefixOf (c :: (a2 ++ b)) = false := by
      simpa using h 0 (by simp)
    rw [List.cons_append, subTS_cons_skip repl c (a2 ++ b) h0]
    rw [ih b (fun i hi => by simpa using h (i + 1) (by simp; omega))]
    rfl

lemma pat_nl_no_match (b : List Char) :
    lastUpdatedPat.isPrefixOf ('\n' :: b) = false := rfl

lemma dropLine_append (a b : List Char) (h : '\n' ∉ a) :
    dropLine (a ++ '\n' :: b) = '\n' :: b := by
  induction a with
  | nil => rfl
  | cons c a2 ih =>
    have hc : (c == '\n') = false := by
      cases hb : c == '\n' with
      | true =>
        exfalso
        apply h
        rw [← beq_iff_eq.mp hb]
        exact List.mem_cons_self c a2
      | false => rfl
    rw [List.cons_append]
    show List.dropWhile _ (c :: (a2 ++ '\n' :: b)) = _
    rw [List.dropWhile_cons]
    simp only [hc, Bool.not_false, if_true]
    exact ih (fun hm => h (List.mem_cons_of_mem c hm))

lemma dropLine_of_no_nl (a : List Char) (h : '\n' ∉ a) : dropLine a = [] := by
  induction a with
  | nil => rfl
  | cons c a2 ih =>
    have hc : (c == '\n') = false := by
      cases hb : c == '\n' with
      | true =>
        exfalso
        apply h
        rw [← beq_iff_eq.mp hb]
        exact List.mem_cons_self c a2
      | false => rfl
    show List.dropWhile _ (c :: a2) = _
    rw [List.dropWhile_cons]
    simp only [hc, Bool.not_false, if_true]
    exact ih (fun hm => h (List.mem_cons_of_mem c hm))

lemma subTS_pat_line (repl l b : List Char) (hl : '\n' ∉ l) :
    subTS repl (lastUpdatedPat ++ (l ++ '\n' :: b)) =
      repl ++ '\n' :: subTS repl b := by
  rw [subTS_consume repl _ (isPrefixOf_append_self lastUpdatedPat _),
    List.drop_left, dropLine_append l b hl,
    subTS_cons_skip repl '\n' b (pat_nl_no_match b)]

lemma subTS_pat_eol (repl l : List Char) (hl : '\n' ∉ l) :
    subTS repl (lastUpdatedPat ++ l) = repl := by
  rw [subTS_consume repl _ (isPrefixOf_append_self lastUpdatedPat _),
    List.drop_left, dropLine_of_no_nl l hl]
  simp [subTS, subTSF]

/-- C3 counterexample: a tracker containing two Last-Updated lines has
both replaced by `re.sub` (which replaces every match), so the update is
not the first-match-only replacement the claim states, and the second
line is not preserved verbatim. -/
theorem c3_counterexample :
    update_last_updated "N" "**Last Updated:**a\n**Last Updated:**b" =
      "**Last Updated:** N\n**Last Updated:** N" ∧
    update_last_updated "N" "**Last Updated:**a\n**Last Updated:**b" ≠
      "**Last Updated:** N\n**Last Updated:**b" := by
  exact ⟨by decide, by decide⟩

/-- C3 (amended): the timestamp substitution replaces every occurrence
of the Last-Updated marker together with the remainder of its line by
the fresh timestamp line, and preserves every character outside those
matched spans verbatim; shown for a content with two occurrences. -/
theorem c3_amended (ts : String) (a l₁ m l₂ : List Char)
    (ha : ∀ i < a.length, lastUpdatedPat.isPrefixOf
      ((a ++ (lastUpdatedPat ++ (l₁ ++ '\n' ::
        (m ++ (lastUpdatedPat ++ l₂))))).drop i) = false)
    (hl₁ : '\n' ∉ l₁)
    (hm : ∀ i < m.length, lastUpdatedPat.isPrefixOf
      ((m ++ (lastUpdatedPat ++ l₂)).drop i) = false)
    (hl₂ : '\n' ∉ l₂) :
    update_last_updated ts
        ⟨a ++ (lastUpdatedPat ++ (l₁ ++ '\n' :: (m ++ (lastUpdatedPat ++ l₂))))⟩ =
      ⟨a ++ (replOf ts ++ '\n' :: (m ++ replOf ts))⟩ := by
  unfold update_last_updated
  congr 1
  rw [subTS_append_no_match (replOf ts) a _ ha,
    subTS_pat_line (replOf ts) l₁ _ hl₁,
    subTS_append_no_match (replOf ts) m _ hm,
    subTS_pat_eol (replOf ts) l₂ hl₂]

/-- C3 amended witness: a tracker with a heading line, a timestamp line,
a body and a second timestamp line. -/
theorem c3_amended_witness :
    update_last_updated "NEW"
        ⟨"# Task Tracker\n\n".data ++ (lastUpdatedPat ++ (" 2024".data ++ '\n' ::
          ("\nbody\n".data ++ (lastUpdatedPat ++ " old".data))))⟩ =
      ⟨"# Task Tracker\n\n".data ++ (replOf "NEW" ++ '\n' ::
        ("\nbody\n".data ++ replOf "NEW"))⟩ :=
  c3_amended "NEW" "# Task Tracker\n\n".data " 2024".data "\nbody\n".data
    " old".data (by decide) (by decide) (by decide) (by decide)

/-! ### Task-tracker update: the suggestion insertions of
`ProjectAnalyzer._generate_initial_tasks` (lines 362-383) -/

def docCheck : List Char := "Consider creating project documentation".data

def docLine : List Char :=
  "- [ ] Consider creating project documentation (auto-suggested)".data

def testCheck : List Char := "Consider adding test coverage".data

def testLine : List Char :=
  "- [ ] Consider adding test coverage (auto-suggested)".data

def pendingHeading : List Char := "## Pending Tasks".data

/-- The insertion loop: find the first line containing the pending-tasks
heading and insert the new checklist line right after it; no heading, no
change. -/
def insertAfterPending (newLine : List Char) : List (List Char) → List (List Char)
  | [] => []
  | l :: ls =>
    if containsSub l pendingHeading then l :: newLine :: ls
    else l :: insertAfterPending newLine ls

/-- The update-mode branch of `_generate_initial_tasks`: substitute the
timestamp line everywhere, then insert the documentation suggestion and
the test-coverage suggestion after the pending-tasks heading, each only
when its structural condition holds and its text is not already present
in the original content. -/
def update_task_tracker (ts : String) (doc_files : List String)
    (languages : List (String × Nat)) (test_dirs : List String)
    (existing : String) : String :=
  let u1 := subTS (replOf ts) existing.data
  let u2 :=
    if doc_files.isEmpty && !containsSub existing.data docCheck then
      joinNL (insertAfterPending docLine (splitNL u1))
    else u1
  let u3 :=
    if !languages.isEmpty && test_dirs.isEmpty &&
        !containsSub existing.data testCheck then
      joinNL (insertAfterPending testLine (splitNL u2))
    else u2
  ⟨u3⟩

lemma splitNL_single (l : List Char) (h : '\n' ∉ l) : splitNL l = [l] := by
  induction l with
  | nil => rfl
  | cons c a2 ih =>
    have hc : c ≠ '\n' := fun he => h (he ▸ List.mem_cons_self c a2)
    rw [splitNL, if_neg hc, ih (fun hm => h (List.mem_cons_of_mem c hm))]

lemma splitNL_append_line (a b : List Char) (h : '\n' ∉ a) :
    splitNL (a ++ '\n' :: b) = a :: splitNL b := by
  induction a with
  | nil => rw [List.nil_append, splitNL, if_pos rfl]
  | cons c a2 ih =>
    have hc : c ≠ '\n' := fun he => h (he ▸ List.mem_cons_self c a2)
    rw [List.cons_append, splitNL, if_neg hc,
      ih (fun hm => h (List.mem_cons_of_mem c hm))]

lemma joinNL_cons_ne (a : List Char) (ls : List (List Char)) (h : ls ≠ []) :
    joinNL (a :: ls) = a ++ '\n' :: joinNL ls := by
  cases ls with
  | nil => exact absurd rfl h
  | cons b ls2 => rfl

lemma splitNL_joinNL :
    ∀ (ls : List (List Char)), ls ≠ [] → (∀ l ∈ ls, '\n' ∉ l) →
      splitNL (joinNL ls) = ls := by
  intro ls
  induction ls with
  | nil => intro h _; exact absurd rfl h
  | cons l ls2 ih =>
    intro _ hnl
    cases ls2 with
    | nil => exact splitNL_single l (hnl l (List.mem_cons_self l []))
    | cons l2 rest =>
      rw [joinNL_cons_ne l (l2 :: rest) (by simp),
        splitNL_append_line _ _ (hnl l (List.mem_cons_self _ _)),
        ih (by simp) (fun x hx => hnl x (List.mem_cons_of_mem l hx))]

lemma insertAfterPending_spec (newLine : List Char) :
    ∀ (pre : List (List Char)) (hd : List Char) (rest : List (List Char)),
      (∀ l ∈ pre, containsSub l pendingHeading = false) →
      containsSub hd pendingHeading = true →
      insertAfterPending newLine (pre ++ hd :: rest) =
        pre ++ hd :: newLine :: rest := by
  intro pre
  induction pre with
  | nil =>
    intro hd rest _ hhd
    rw [List.nil_append, insertAfterPending, if_pos hhd, List.nil_append]
  | cons p pre2 ih =>
    intro hd rest hpre hhd
    have hp : containsSub p pendingHeading = false :=
      hpre p (List.mem_cons_self p pre2)
    rw [List.cons_append, insertAfterPending, if_neg (by simp [hp]),
      ih hd rest (fun l hl => hpre l (List.mem_cons_of_mem p hl)) hhd,
      List.cons_append]

lemma mem_subTSF (repl : List Char) :
    ∀ (f : Nat) (s : List Char) (c : Char),
      c ∈ subTSF repl f s → c ∈ repl ∨ c ∈ s := by
  intro f
  induction f with
  | zero => intro s c hc; exact Or.inr hc
  | succ f2 ih =>
    intro s c hc
    cases s with
    | nil => simp [subTSF] at hc
    | cons x rest =>
      rw [subTSF] at hc
      by_cases hp : lastUpdatedPat.isPrefixOf (x :: rest) = true
      · rw [if_pos hp] at hc
        rcases List.mem_append.mp hc with h | h
        · exact Or.inl h
        · rcases ih _ c h with h2 | h2
          · exact Or.inl h2
          · refine Or.inr ?_
            have hsub : dropLine ((x :: rest).drop lastUpdatedPat.length) ⊆
                (x :: rest).drop lastUpdatedPat.length := by
              rw [dropLine]
              exact (List.dropWhile_sublist _).subset
            exact List.drop_subset _ _ (hsub h2)
      · rw [if_neg hp] at hc
        rcases List.mem_cons.mp hc with h | h
        · exact Or.inr (h ▸ List.mem_cons_self x rest)
        · rcases ih _ c h with h2 | h2
          · exact Or.inl h2
          · exact Or.inr (List.mem_cons_of_mem x h2)

lemma nl_not_in_subTS (repl s : List Char) (hr : '\n' ∉ repl) (hs : '\n' ∉ s) :
    '\n' ∉ subTS repl s := by
  intro hmem
  rcases mem_subTSF repl s.length s '\n' hmem with h | h
  · exact hr h
  · exact hs h

lemma isPrefixOf_extend (p x y : List Char) (h : p.isPrefixOf x = true) :
    p.isPrefixOf (x ++ y) = true := by
  obtain ⟨t, ht⟩ := List.isPrefixOf_iff_prefix.mp h
  exact List.isPrefixOf_iff_prefix.mpr ⟨t ++ y, by rw [← List.append_assoc, ht]⟩

lemma prefix_fits :
    ∀ (p a b : List Char), '\n' ∉ p → '\n' ∉ a →
      p.isPrefixOf (a ++ '\n' :: b) = true →
      p.length ≤ a.length ∧ p.isPrefixOf a = true := by
  intro p
  induction p with
  | nil =>
    intro a b _ _ _
    exact ⟨by simp, by cases a <;> rfl⟩
  | cons x p2 ih =>
    intro a b hnp hna hpre
    cases a with
    | nil =>
      exfalso
      apply hnp
      simp only [List.nil_append, List.isPrefixOf, Bool.and_eq_true,
        beq_iff_eq] at hpre
      simp [hpre.1]
    | cons y a2 =>
      simp only [List.cons_append, List.isPrefixOf, Bool.and_eq_true,
        beq_iff_eq] at hpre
      obtain ⟨hxy, hrest⟩ := hpre
      obtain ⟨hlen, hpre2⟩ := ih a2 b
        (fun hm => hnp (List.mem_cons_of_mem _ hm))
        (fun hm => hna (List.mem_cons_of_mem _ hm)) hrest
      refine ⟨by simp only [List.length_cons]; omega, ?_⟩
      simp only [List.isPrefixOf, Bool.and_eq_true, beq_iff_eq]
      exact ⟨hxy, hpre2⟩

lemma pat_no_nl : '\n' ∉ lastUpdatedPat := by decide

lemma subTS_line_append (repl : List Char) :
    ∀ (n : Nat) (a b : List Char), a.length ≤ n → '\n' ∉ a →
      subTS repl (a ++ '\n' :: b) = subTS repl a ++ '\n' :: subTS repl b := by
  intro n
  induction n with
  | zero =>
    intro a b hlen _
    have : a = [] := List.length_eq_zero.mp (Nat.le_zero.mp hlen)
    subst this
    rw [List.nil_append,
      subTS_cons_skip repl '\n' b (pat_nl_no_match b)]
    rfl
  | succ n2 ih =>
    intro a b hlen hna
    cases a with
    | nil =>
      rw [List.nil_append,
        subTS_cons_skip repl '\n' b (pat_nl_no_match b)]
      rfl
    | cons c a2 =>
      cases hp : lastUpdatedPat.isPrefixOf ((c :: a2) ++ '\n' :: b) with
      | false =>
        have hp2 : lastUpdatedPat.isPrefixOf (c :: a2) = false := by
          cases hq : lastUpdatedPat.isPrefixOf (c :: a2) with
          | true => rw [← hp]; exact (isPrefixOf_extend _ _ _ hq).symm
          | false => rfl
        rw [List.cons_append] at hp ⊢
        rw [subTS_cons_skip repl c _ hp,
          ih a2 b (by simp only [List.length_cons] at hlen; omega)
            (fun hm => hna (List.mem_cons_of_mem c hm)),
          subTS_cons_skip repl c a2 hp2, List.cons_append]
      | true =>
        obtain ⟨hfit, hpre⟩ := prefix_fits lastUpdatedPat (c :: a2) b
          pat_no_nl hna hp
        have hdropnl : '\n' ∉ (c :: a2).drop lastUpdatedPat.length :=
          fun hm => hna (List.drop_subset _ _ hm)
        rw [subTS_consume repl _ hp, List.drop_append_of_le_length hfit,
          dropLine_append _ _ hdropnl,
          subTS_cons_skip repl '\n' b (pat_nl_no_match b),
          subTS_consume repl _ hpre, dropLine_of_no_nl _ hdropnl]
        show repl ++ '\n' :: subTS repl b =
          (repl ++ subTS repl []) ++ '\n' :: subTS repl b
        rw [show subTS repl [] = [] from rfl, List.append_nil]

lemma subTS_joinNL (repl : List Char) :
    ∀ (ls : List (List Char)), (∀ l ∈ ls, '\n' ∉ l) →
      subTS repl (joinNL ls) = joinNL (ls.map (subTS repl)) := by
  intro ls
  induction ls with
  | nil => intro _; rfl
  | cons l ls2 ih =>
    intro hnl
    cases ls2 with
    | nil => rfl
    | cons l2 rest =>
      have hr : joinNL (List.map (subTS repl) (l :: l2 :: rest)) =
          subTS repl l ++ '\n' :: joinNL (List.map (subTS repl) (l2 :: rest)) := by
        rw [List.map_cons]
        exact joinNL_cons_ne _ _ (by simp)
      rw [joinNL_cons_ne l (l2 :: rest) (by simp),
        subTS_line_append repl l.length l _ (le_refl _)
          (hnl l (List.mem_cons_self _ _)),
        ih (fun x hx => hnl x (List.mem_cons_of_mem l hx)), hr]

lemma subTS_no_match (repl s : List Char)
    (h : ∀ i < s.length, lastUpdatedPat.isPrefixOf (s.drop i) = false) :
    subTS repl s = s := by
  have h2 := subTS_append_no_match repl s []
    (by intro i hi; rw [List.append_nil]; exact h i hi)
  rw [List.append_nil] at h2
  rw [h2, show subTS repl [] = ([] : List Char) from rfl, List.append_nil]

lemma splitFirst_isSome_append (pat : List Char) (hp : pat ≠ []) :
    ∀ (s₁ s₃ : List Char), (splitFirst pat (s₁ ++ (pat ++ s₃))).isSome = true := by
  intro s₁
  induction s₁ with
  | nil =>
    intro s₃
    rw [List.nil_append]
    cases he : pat ++ s₃ with
    | nil =>
      exfalso
      cases hq : pat with
      | nil => exact hp hq
      | cons c rest => rw [hq] at he; simp at he
    | cons d ds =>
      rw [splitFirst, ← he, isPrefixOf_append_self]
      simp
  | cons c s2 ih =>
    intro s₃
    rw [List.cons_append, splitFirst]
    cases hq : pat.isPrefixOf (c :: (s2 ++ (pat ++ s₃))) with
    | true => simp
    | false =>
      simp only [Bool.false_eq_true, if_false]
      have hi := ih s₃
      cases hsp : splitFirst pat (s2 ++ (pat ++ s₃)) with
      | none => rw [hsp] at hi; simp at hi
      | some pq =>
        obtain ⟨q1, q2⟩ := pq
        simp

lemma joinNL_mem_decomp :
    ∀ (as : List (List Char)) (l : List Char) (bs : List (List Char)),
      ∃ s₁ s₃, joinNL (as ++ l :: bs) = s₁ ++ (l ++ s₃) := by
  intro as
  induction as with
  | nil =>
    intro l bs
    cases bs with
    | nil => exact ⟨[], [], by simp [joinNL]⟩
    | cons b bs2 =>
      exact ⟨[], '\n' :: joinNL (b :: bs2),
        by rw [List.nil_append, joinNL_cons_ne l (b :: bs2) (by simp),
          List.nil_append]⟩
  | cons a as2 ih =>
    intro l bs
    obtain ⟨s₁, s₃, hs⟩ := ih l bs
    refine ⟨a ++ '\n' :: s₁, s₃, ?_⟩
    rw [List.cons_append, joinNL_cons_ne a (as2 ++ l :: bs) (by simp), hs]
    simp

lemma iteCondTrue {α : Type} (b : Bool) (h : b = true) (x y : α) :
    (if b then x else y) = x := by rw [h]; rfl

lemma iteCondFalse {α : Type} (b : Bool) (h : b = false) (x y : α) :
    (if b then x else y) = y := by rw [h]; rfl

lemma isEmpty_false_of_ne_nil {α : Type} (l : List α) (h : l ≠ []) :
    l.isEmpty = false := by
  cases l with
  | nil => exact absurd rfl h
  | cons a r => rfl

/-- C4: on a tracker whose lines are some prefix, the pending-tasks
heading, and a tail, with no doc files, no test directories, at least
one counted language and neither suggestion text present, the update
leaves the surrounding lines (timestamp-substituted) in place and puts
exactly the two suggestion lines directly under the heading, the
test-coverage line above the documentation line; and a second update run
on the produced file only substitutes the timestamp again, inserting
neither suggestion a second time. -/
theorem c4_suggestion_insertions (ts : String) (preLs postLs : List (List Char))
    (languages : List (String × Nat))
    (hlang : languages ≠ [])
    (hts : '\n' ∉ ts.data)
    (hpre_nl : ∀ l ∈ preLs, '\n' ∉ l)
    (hpost_nl : ∀ l ∈ postLs, '\n' ∉ l)
    (hpre_nohead : ∀ l ∈ preLs,
      containsSub (subTS (replOf ts) l) pendingHeading = false)
    (hdoc : containsSub (joinNL (preLs ++ pendingHeading :: postLs)) docCheck
      = false)
    (htest : containsSub (joinNL (preLs ++ pendingHeading :: postLs)) testCheck
      = false) :
    update_task_tracker ts [] languages []
        ⟨joinNL (preLs ++ pendingHeading :: postLs)⟩ =
      ⟨joinNL (preLs.map (subTS (replOf ts)) ++ pendingHeading :: testLine ::
        docLine :: postLs.map (subTS (replOf ts)))⟩ ∧
    ∀ (ts2 : String) (df2 : List String) (langs2 : List (String × Nat))
        (td2 : List String),
      update_task_tracker ts2 df2 langs2 td2
          ⟨joinNL (preLs.map (subTS (replOf ts)) ++ pendingHeading :: testLine ::
            docLine :: postLs.map (subTS (replOf ts)))⟩ =
        ⟨subTS (replOf ts2) (joinNL (preLs.map (subTS (replOf ts)) ++
          pendingHeading :: testLine :: docLine ::
          postLs.map (subTS (replOf ts))))⟩ := by
  have hrepl_eq : replOf ts = "**Last Updated:** ".data ++ ts.data := by
    cases ts with
    | mk d => rfl
  have hrepl_nl : '\n' ∉ replOf ts := by
    rw [hrepl_eq]
    intro hm
    rcases List.mem_append.mp hm with h | h
    · exact absurd h (by decide)
    · exact hts h
  have hall : ∀ l ∈ preLs ++ pendingHeading :: postLs, '\n' ∉ l := by
    intro l hl
    rcases List.mem_append.mp hl with h | h
    · exact hpre_nl l h
    · rcases List.mem_cons.mp h with he | h2
      · subst he; decide
      · exact hpost_nl l h2
  have hu1 : subTS (replOf ts) (joinNL (preLs ++ pendingHeading :: postLs)) =
      joinNL (preLs.map (subTS (replOf ts)) ++ pendingHeading ::
        postLs.map (subTS (replOf ts))) := by
    rw [subTS_joinNL _ _ hall, List.map_append, List.map_cons,
      subTS_no_match (replOf ts) pendingHeading (by decide)]
  have hmapped_nl : ∀ l ∈ preLs.map (subTS (replOf ts)) ++ pendingHeading ::
      postLs.map (subTS (replOf ts)), '\n' ∉ l := by
    intro l hl
    rcases List.mem_append.mp hl with h | h
    · obtain ⟨x, hx, rfl⟩ := List.mem_map.mp h
      exact nl_not_in_subTS _ _ hrepl_nl (hpre_nl x hx)
    · rcases List.mem_cons.mp h with he | h2
      · subst he; decide
      · obtain ⟨x, hx, rfl⟩ := List.mem_map.mp h2
        exact nl_not_in_subTS _ _ hrepl_nl (hpost_nl x hx)
  have hpreM : ∀ l ∈ preLs.map (subTS (replOf ts)),
      containsSub l pendingHeading = false := by
    intro l hl
    obtain ⟨x, hx, rfl⟩ := List.mem_map.mp hl
    exact hpre_nohead x hx
  have hsplit1 : splitNL (joinNL (preLs.map (subTS (replOf ts)) ++
      pendingHeading :: postLs.map (subTS (replOf ts)))) =
      preLs.map (subTS (replOf ts)) ++ pendingHeading ::
        postLs.map (subTS (replOf ts)) :=
    splitNL_joinNL _ (by simp) hmapped_nl
  have hins1 : insertAfterPending docLine (preLs.map (subTS (replOf ts)) ++
      pendingHeading :: postLs.map (subTS (replOf ts))) =
      preLs.map (subTS (replOf ts)) ++ pendingHeading :: docLine ::
        postLs.map (subTS (replOf ts)) :=
    insertAfterPending_spec docLine _ _ _ hpreM (by decide)
  have hmapped_nl2 : ∀ l ∈ preLs.map (subTS (replOf ts)) ++ pendingHeading ::
      docLine :: postLs.map (subTS (replOf ts)), '\n' ∉ l := by
    intro l hl
    rcases List.mem_append.mp hl with h | h
    · exact hmapped_nl l (List.mem_append_left _ h)
    · rcases List.mem_cons.mp h with he | h2
      · subst he; decide
      · rcases List.mem_cons.mp h2 with he | h3
        · subst he; decide
        · exact hmapped_nl l (List.mem_append_right _ (List.mem_cons_of_mem _ h3))
  have hsplit2 : splitNL (joinNL (preLs.map (subTS (replOf ts)) ++
      pendingHeading :: docLine :: postLs.map (subTS (replOf ts)))) =
      preLs.map (subTS (replOf ts)) ++ pendingHeading :: docLine ::
        postLs.map (subTS (replOf ts)) :=
    splitNL_joinNL _ (by simp) hmapped_nl2
  have hins2 : insertAfterPending testLine (preLs.map (subTS (replOf ts)) ++
      pendingHeading :: docLine :: postLs.map (subTS (replOf ts))) =
      preLs.map (subTS (replOf ts)) ++ pendingHeading :: testLine :: docLine ::
        postLs.map (subTS (replOf ts)) :=
    insertAfterPending_spec testLine _ _ _ hpreM (by decide)
  have hlangF : languages.isEmpty = false := isEmpty_false_of_ne_nil _ hlang
  constructor
  · simp only [update_task_tracker]
    rw [iteCondTrue _ (by rw [hlangF, htest]; rfl),
      iteCondTrue _ (by rw [hdoc]; rfl),
      hu1, hsplit1, hins1, hsplit2, hins2]
  · intro ts2 df2 langs2 td2
    have hdocline : docLine =
        "- [ ] ".data ++ (docCheck ++ " (auto-suggested)".data) := by decide
    have htestline : testLine =
        "- [ ] ".data ++ (testCheck ++ " (auto-suggested)".data) := by decide
    have hcd : containsSub (joinNL (preLs.map (subTS (replOf ts)) ++
        pendingHeading :: testLine :: docLine ::
        postLs.map (subTS (replOf ts)))) docCheck = true := by
      obtain ⟨s₁, s₃, hs⟩ := joinNL_mem_decomp
        (preLs.map (subTS (replOf ts)) ++ [pendingHeading, testLine]) docLine
        (postLs.map (subTS (replOf ts)))
      have hshape : preLs.map (subTS (replOf ts)) ++ pendingHeading ::
          testLine :: docLine :: postLs.map (subTS (replOf ts)) =
          (preLs.map (subTS (replOf ts)) ++ [pendingHeading, testLine]) ++
            docLine :: postLs.map (subTS (replOf ts)) := by simp
      rw [hshape, hs, hdocline]
      have hassoc : s₁ ++ (("- [ ] ".data ++
          (docCheck ++ " (auto-suggested)".data)) ++ s₃) =
          (s₁ ++ "- [ ] ".data) ++
            (docCheck ++ (" (auto-suggested)".data ++ s₃)) := by simp
      rw [hassoc]
      exact splitFirst_isSome_append docCheck (by decide) _ _
    have hct : containsSub (joinNL (preLs.map (subTS (replOf ts)) ++
        pendingHeading :: testLine :: docLine ::
        postLs.map (subTS (replOf ts)))) testCheck = true := by
      obtain ⟨s₁, s₃, hs⟩ := joinNL_mem_decomp
        (preLs.map (subTS (replOf ts)) ++ [pendingHeading]) testLine
        (docLine :: postLs.map (subTS (replOf ts)))
      have hshape : preLs.map (subTS (replOf ts)) ++ pendingHeading ::
          testLine :: docLine :: postLs.map (subTS (replOf ts)) =
          (preLs.map (subTS (replOf ts)) ++ [pendingHeading]) ++
            testLine :: docLine :: postLs.map (subTS (replOf ts)) := by simp
      rw [hshape, hs, htestline]
      have hassoc : s₁ ++ (("- [ ] ".data ++
          (testCheck ++ " (auto-suggested)".data)) ++ s₃) =
          (s₁ ++ "- [ ] ".data) ++
            (testCheck ++ (" (auto-suggested)".data ++ s₃)) := by simp
      rw [hassoc]
      exact splitFirst_isSome_append testCheck (by decide) _ _
    simp only [update_task_tracker]
    rw [iteCondFalse _ (by rw [hct]; simp),
      iteCondFalse _ (by rw [hcd]; simp)]

/-- C4 witness: a concrete tracker with a title, a timestamp line and one
existing task, a project with one counted language, no docs and no test
directories; both suggestions land under the heading (test above doc)
and a second run with a fresh timestamp only substitutes timestamps. -/
theorem c4_suggestion_insertions_witness :
    (update_task_tracker "T1" [] [("python", 3)] []
        ⟨joinNL (["# Task Tracker".data, [], "**Last Updated:** old".data,
          []] ++ pendingHeading :: ["- [ ] existing task".data])⟩ =
      ⟨joinNL ((["# Task Tracker".data, [], "**Last Updated:** old".data,
          []].map (subTS (replOf "T1"))) ++ pendingHeading :: testLine ::
        docLine :: (["- [ ] existing task".data].map (subTS (replOf "T1"))))⟩) ∧
    (update_task_tracker "T2" [] [] []
        ⟨joinNL ((["# Task Tracker".data, [], "**Last Updated:** old".data,
          []].map (subTS (replOf "T1"))) ++ pendingHeading :: testLine ::
        docLine :: (["- [ ] existing task".data].map (subTS (replOf "T1"))))⟩ =
      ⟨subTS (replOf "T2")
        (joinNL ((["# Task Tracker".data, [], "**Last Updated:** old".data,
          []].map (subTS (replOf "T1"))) ++ pendingHeading :: testLine ::
        docLine :: (["- [ ] existing task".data].map (subTS (replOf "T1")))))⟩) :=
  have h := c4_suggestion_insertions "T1"
    ["# Task Tracker".data, [], "**Last Updated:** old".data, []]
    ["- [ ] existing task".data] [("python", 3)]
    (by decide) (by decide) (by decide) (by decide) (by decide) (by decide)
    (by decide)
  ⟨h.1, h.2 "T2" [] [] []⟩

end ContextAnalyzer
